import Mathlib

/-!
# utxx: `util::basic_buffer_queue`

A shallow embedding of `include/util/basic_buffer_queue.hpp`: the double-buffered
output queue that accumulates chunks in one deque while the other deque is being
written to a socket by a single asynchronous `boost::asio::async_write`.

* The two deques `m_q1`, `m_q2` are lists of chunks (front of the deque = head).
* `m_out_queues[0]` points at `m_q1` and `m_out_queues[1]` at `m_q2` (set once by the
  constructor and never reassigned), so the array is embedded as the accessor
  `out_queue` / `set_out_queue`.
* What the member functions do to the outside world (calling the caller's handler,
  handing a buffer sequence to `boost::asio::async_write`) is returned as a list of
  `Effect`s, in program order.
* `System` adds the environment: the writes the transport has accepted and not yet
  completed, and the log of all effects so far.  A completion is a step of its own:
  `boost::asio::async_write` never runs the completion handler from inside the
  initiating call.

The last part embeds `utxx::path::basename` of `src/path.cpp`: pointers are addresses
into a memory of characters, and `path::slash()` is a parameter.
-/

namespace util

/-! ## Data model -/

/-- The status `boost::system::error_code`: an integer value, zero meaning success. -/
structure error_code where
  value : Int
  deriving DecidableEq, Repr

/-- The default-constructed `boost::system::error_code()`: no error. -/
def error_code.ok : error_code := ⟨0⟩

/-- The test `if (ec)`: true exactly when the status carries an error. -/
def error_code.failed (ec : error_code) : Bool := ec.value != 0

/-- The data members of `basic_buffer_queue<BufferType>` (lines 34-40).
`m_available_queue` is the `char` index of the queue used for caching. -/
structure basic_buffer_queue (B : Type) where
  m_q1 : List B
  m_q2 : List B
  m_available_queue : Nat
  m_is_writing : Bool
  deriving DecidableEq, Repr

/-- The completion object `write_wrapper<Socket, Handler>` (lines 42-56). The references
`m_bq` and `m_socket` are the queue it is applied to and the socket, neither of which
is data; what it carries is the caller's handler. -/
structure write_wrapper (H : Type) where
  m_handler : H
  deriving DecidableEq, Repr

/-- What a member function does to the outside world. -/
inductive Effect (B H : Type) where
  /-- The call `a_h(ec)` of a caller-supplied handler. -/
  | handler_call (h : H) (ec : error_code)
  /-- The call `boost::asio::async_write(a_socket, buffers, transfer_all(), w)`. -/
  | transport_write (buffers : List B) (w : write_wrapper H)
  deriving DecidableEq, Repr

variable {B H : Type}

/-! ## Member functions -/

/-- The C++ operator `!` on an integer: 1 for zero, 0 for anything else. -/
def lnot (x : Nat) : Nat := if x = 0 then 1 else 0

/-- The constructor (lines 92-99): both deques empty, index 0, not writing. -/
def basic_buffer_queue.new : basic_buffer_queue B :=
  { m_q1 := [], m_q2 := [], m_available_queue := 0, m_is_writing := false }

/-- The deque `*m_out_queues[i]`: entry 0 is `m_q1`, entry 1 is `m_q2`. -/
def out_queue (q : basic_buffer_queue B) (i : Nat) : List B :=
  if i = 0 then q.m_q1 else q.m_q2

/-- Assignment of new contents to the deque `*m_out_queues[i]`. -/
def set_out_queue (q : basic_buffer_queue B) (i : Nat) (l : List B) : basic_buffer_queue B :=
  if i = 0 then { q with m_q1 := l } else { q with m_q2 := l }

/-- Line 73: `m_available_queue = !m_available_queue`. -/
def flip_queues (q : basic_buffer_queue B) : basic_buffer_queue B :=
  { q with m_available_queue := lnot q.m_available_queue }

/-- Line 75: `return !m_available_queue`. -/
def writing_queue (q : basic_buffer_queue B) : Nat := lnot q.m_available_queue

/-- Line 77: `return m_available_queue`. -/
def available_queue (q : basic_buffer_queue B) : Nat := q.m_available_queue

/-- The call `m_out_queues[i]->push_back(a_buf)`. -/
def push_back (q : basic_buffer_queue B) (i : Nat) (a_buf : B) : basic_buffer_queue B :=
  set_out_queue q i (out_queue q i ++ [a_buf])

/-- The call `m_out_queues[i]->clear()`. -/
def clear (q : basic_buffer_queue B) (i : Nat) : basic_buffer_queue B :=
  set_out_queue q i []

/-- Lines 58-70. -/
def do_write_internal (q : basic_buffer_queue B) (a_h : H) :
    basic_buffer_queue B × List (Effect B H) :=
  if q.m_is_writing || (out_queue q (available_queue q)).isEmpty then
    (q, [Effect.handler_call a_h error_code.ok])
  else
    let q1 := { q with m_is_writing := true }
    let q2 := flip_queues q1
    (q2, [Effect.transport_write (out_queue q2 (writing_queue q2)) ⟨a_h⟩])

/-- Lines 79-89. -/
def handle_write (q : basic_buffer_queue B) (ec : error_code) (a_h : H) :
    basic_buffer_queue B × List (Effect B H) :=
  if ec.failed then
    (q, [Effect.handler_call a_h ec])
  else
    let q1 := clear q (writing_queue q)
    let q2 := { q1 with m_is_writing := false }
    do_write_internal q2 a_h

/-- Lines 52-55, `write_wrapper::operator()`: forwards to `handle_write` with the stored
handler (`bytes_transferred` is ignored by the source). -/
def write_wrapper.call (w : write_wrapper H) (q : basic_buffer_queue B) (ec : error_code) :
    basic_buffer_queue B × List (Effect B H) :=
  handle_write q ec w.m_handler

/-- Lines 102-104. -/
def enqueue (q : basic_buffer_queue B) (a_buf : B) : basic_buffer_queue B :=
  push_back q (available_queue q) a_buf

/-- Lines 108-110, the overload `async_write(a_socket, a_h)`. -/
def async_write (q : basic_buffer_queue B) (a_h : H) :
    basic_buffer_queue B × List (Effect B H) :=
  do_write_internal q a_h

/-- Lines 114-117, the overload `async_write(a_socket, a_buf, a_h)`. -/
def async_write_buf (q : basic_buffer_queue B) (a_buf : B) (a_h : H) :
    basic_buffer_queue B × List (Effect B H) :=
  do_write_internal (push_back q (available_queue q) a_buf) a_h

/-! ## The queue together with its transport -/

/-- The buffer sequences handed to the transport by a list of effects, with their
completion objects, in order. -/
def writes : List (Effect B H) → List (List B × write_wrapper H)
  | [] => []
  | Effect.transport_write b w :: es => (b, w) :: writes es
  | Effect.handler_call _ _ :: es => writes es

/-- The handler calls made by a list of effects, in order. -/
def calls : List (Effect B H) → List (H × error_code)
  | [] => []
  | Effect.handler_call h ec :: es => (h, ec) :: calls es
  | Effect.transport_write _ _ :: es => calls es

/-- A queue and its environment: `pending` are the transport writes that were submitted
and whose completion object has not been called yet (oldest first); `log` is everything
the queue has done to the outside world since construction (oldest first). -/
structure System (B H : Type) where
  bq : basic_buffer_queue B
  pending : List (List B × write_wrapper H)
  log : List (Effect B H)
  deriving DecidableEq, Repr

/-- A freshly constructed queue: nothing submitted, nothing called. -/
def System.new : System B H :=
  { bq := basic_buffer_queue.new, pending := [], log := [] }

/-- Record the outcome of a member function: the new queue, its effects appended to the
log, the writes it submitted appended to the pending ones. -/
def System.record (s : System B H) (r : basic_buffer_queue B × List (Effect B H)) :
    System B H :=
  { bq := r.1, pending := s.pending ++ writes r.2, log := s.log ++ r.2 }

/-- What can happen to a queue: the three public calls, and the transport delivering the
completion of the pending write number `i` with status `ec`. -/
inductive Step (B H : Type) where
  | enqueue (a_buf : B)
  | async_write (a_h : H)
  | async_write_buf (a_buf : B) (a_h : H)
  | completion (i : Nat) (ec : error_code)
  deriving DecidableEq, Repr

/-- The public calls, as opposed to completions delivered by the transport. -/
def Step.is_call : Step B H → Bool
  | Step.completion _ _ => false
  | _ => true

/-- One step. A completion is possible only for a write that is pending; it removes that
write from the pending ones and calls its completion object. -/
def step (s : System B H) : Step B H → Option (System B H)
  | Step.enqueue a_buf => some { s with bq := enqueue s.bq a_buf }
  | Step.async_write a_h => some (s.record (async_write s.bq a_h))
  | Step.async_write_buf a_buf a_h => some (s.record (async_write_buf s.bq a_buf a_h))
  | Step.completion i ec =>
    match s.pending[i]? with
    | none => none
    | some p =>
      some (System.record { s with pending := s.pending.eraseIdx i } (p.2.call s.bq ec))

/-- A finite sequence of steps, from left to right; `none` when some completion in it
is delivered for a write that is not pending. -/
def run (s : System B H) : List (Step B H) → Option (System B H)
  | [] => some s
  | x :: xs => (step s x).bind (fun s1 => run s1 xs)

/-- The states a freshly constructed queue can be in. -/
def Reachable (s : System B H) : Prop :=
  ∃ tr : List (Step B H), run System.new tr = some s

/-- The chunks a sequence of steps enqueues, in order. -/
def enqueued : List (Step B H) → List B
  | [] => []
  | Step.enqueue a_buf :: xs => a_buf :: enqueued xs
  | Step.async_write_buf a_buf _ :: xs => a_buf :: enqueued xs
  | Step.async_write _ :: xs => enqueued xs
  | Step.completion _ _ :: xs => enqueued xs

/-- Everything handed to the transport so far, batch after batch. -/
def transported (s : System B H) : List B :=
  ((writes s.log).map Prod.fst).flatten

/-- The contents of the accumulating slot, `*m_out_queues[available_queue()]`. -/
def accumulating (q : basic_buffer_queue B) : List B := out_queue q (available_queue q)

/-- The contents of the draining slot, `*m_out_queues[writing_queue()]`. -/
def draining (q : basic_buffer_queue B) : List B := out_queue q (writing_queue q)

/-- What holds in every reachable state: at most one write is pending; while one is
pending the flag is set and the draining slot holds the batch that was submitted; a
queue whose flag is clear has an empty draining slot; and the index is 0 or 1. -/
structure Inv (s : System B H) : Prop where
  pending_le : s.pending.length ≤ 1
  pending_writing : ∀ p ∈ s.pending, s.bq.m_is_writing = true ∧ draining s.bq = p.1
  idle_drained : s.bq.m_is_writing = false → draining s.bq = []
  index_le : s.bq.m_available_queue ≤ 1

/-! ## Concrete runs -/

/-- The scenario of the specification up to the moment the first write is pending:
chunks 1 and 2 are enqueued and flushed with handler 0, then chunk 3 is enqueued. -/
def scenario : List (Step Nat Nat) :=
  [Step.enqueue 1, Step.enqueue 2, Step.async_write 0, Step.enqueue 3]

/-- The state the scenario leads to: `m_q1` is being written, `m_q2` accumulates. -/
def scenario_state : System Nat Nat :=
  { bq := { m_q1 := [1, 2], m_q2 := [3], m_available_queue := 1, m_is_writing := true }
    pending := [([1, 2], ⟨0⟩)]
    log := [Effect.transport_write [1, 2] ⟨0⟩] }

/-- A write of chunk 1 fails with status 5 while chunk 2 has been enqueued behind it; the
caller then flushes again with handler 7. -/
def failure_then_flush : List (Step Nat Nat) :=
  [Step.enqueue 1, Step.async_write 0, Step.enqueue 2, Step.completion 0 ⟨5⟩,
    Step.async_write 7]

/-- A write of chunk 1 is submitted and its completion reports status 5. -/
def failed_write : List (Step Nat Nat) :=
  [Step.enqueue 1, Step.async_write 0, Step.completion 0 ⟨5⟩]

/-- Chunks 1 and 2 are enqueued on a fresh queue. -/
def loading : List (Step Nat Nat) := [Step.enqueue 1, Step.enqueue 2]

/-- The state after `loading`: idle, with two chunks accumulated in `m_q1`. -/
def loaded_state : System Nat Nat :=
  { bq := { m_q1 := [1, 2], m_q2 := [], m_available_queue := 0, m_is_writing := false }
    pending := []
    log := [] }

/-- The state after flushing `loaded_state` with handler 0: the batch `[1, 2]` is pending. -/
def flushed_state : System Nat Nat :=
  { bq := { m_q1 := [1, 2], m_q2 := [], m_available_queue := 1, m_is_writing := true }
    pending := [([1, 2], ⟨0⟩)]
    log := [Effect.transport_write [1, 2] ⟨0⟩] }

/-- Calls made while the batch `[1, 2]` is pending: chunk 3 is enqueued, chunk 4 is
enqueued and flushed with handler 9. -/
def during_write : List (Step Nat Nat) := [Step.enqueue 3, Step.async_write_buf 4 9]

/-- The state after `during_write`. -/
def coalesced_state : System Nat Nat :=
  { bq := { m_q1 := [1, 2], m_q2 := [3, 4], m_available_queue := 1, m_is_writing := true }
    pending := [([1, 2], ⟨0⟩)]
    log := [Effect.transport_write [1, 2] ⟨0⟩, Effect.handler_call 9 error_code.ok] }

/-- The handlers passed to the `async_write` calls (both overloads) of a sequence of
steps, in order. -/
def supplied : List (Step B H) → List H
  | [] => []
  | Step.async_write a_h :: xs => a_h :: supplied xs
  | Step.async_write_buf _ a_h :: xs => a_h :: supplied xs
  | Step.enqueue _ :: xs => supplied xs
  | Step.completion _ _ :: xs => supplied xs

/-- The handlers stored in the completion objects of a list of pending writes. -/
def registered (ps : List (List B × write_wrapper H)) : List H :=
  ps.map (fun p => p.2.m_handler)

/-- The specification's reading of `enqueueAndFlush(transport, chunk, callback)`:
`enqueue(chunk)` followed by `flush(transport, callback)`. -/
def enqueue_then_flush (s : System B H) (chunk : B) (callback : H) : Option (System B H) :=
  run s [Step.enqueue chunk, Step.async_write callback]

/-- The handlers called so far, in order of the calls. -/
def called (s : System B H) : List H := (calls s.log).map Prod.fst

/-- Calls made after the failure: chunk 4 is enqueued, then two flushes, the second with
chunk 5. -/
def after_failure : List (Step Nat Nat) :=
  [Step.enqueue 4, Step.async_write 7, Step.async_write_buf 5 8]

end util

/-! ## `utxx::path::basename` -/

namespace utxx.path

/-- The loop of `basename` (`src/path.cpp`, lines 55-58) with the pointer `end` standing at
`begin + n`: while `end != begin`, if `*end` is the separator return `++end`, otherwise
`--end`; when the loop runs out, return `begin`. -/
def basename_loop (mem : Nat → Char) (ch : Char) (begin : Nat) : Nat → Nat
  | 0 => begin
  | n + 1 =>
    if mem (begin + (n + 1)) = ch then begin + (n + 1) + 1
    else basename_loop mem ch begin n

/-- The function `basename(begin, end)` (`src/path.cpp`, lines 53-59). Pointers are
addresses, `mem` is the memory they point into, and `slash` is the value of
`path::slash()`, which is declared in `utxx/path.hpp`. The assertion `begin <= end` is the
precondition: the result is `none` when it fails. -/
def basename (mem : Nat → Char) (slash : Char) (begin end_ : Nat) : Option Nat :=
  if begin ≤ end_ then some (basename_loop mem slash begin (end_ - begin)) else none

/-- The NUL-terminated string `/abc` at address 0; every other byte of memory is NUL. -/
def rooted : Nat → Char := fun a => ['/', 'a', 'b', 'c'].getD a (Char.ofNat 0)

end utxx.path

namespace util

variable {B H : Type}

/-! ## Basic facts about the slots -/

theorem lnot_lnot_eq_zero_iff (x : Nat) : lnot (lnot x) = 0 ↔ x = 0 := by
  unfold lnot
  by_cases hx : x = 0 <;> simp [hx]

theorem lnot_eq_zero_iff (x : Nat) : lnot x = 0 ↔ x ≠ 0 := by
  unfold lnot
  by_cases hx : x = 0 <;> simp [hx]

theorem lnot_le_one (x : Nat) : lnot x ≤ 1 := by
  unfold lnot
  split <;> simp

theorem lnot_lnot (x : Nat) (hx : x ≤ 1) : lnot (lnot x) = x := by
  unfold lnot
  by_cases h0 : x = 0
  · simp [h0]
  · simp [h0]; omega

theorem accumulating_flip (q : basic_buffer_queue B) :
    accumulating (flip_queues q) = draining q := rfl

theorem draining_flip (q : basic_buffer_queue B) :
    draining (flip_queues q) = accumulating q := by
  simp only [draining, accumulating, flip_queues, writing_queue, available_queue, out_queue,
    lnot_lnot_eq_zero_iff]

theorem accumulating_push_back (q : basic_buffer_queue B) (c : B) :
    accumulating (push_back q (available_queue q) c) = accumulating q ++ [c] := by
  simp only [accumulating, push_back, set_out_queue, available_queue, out_queue]
  by_cases hx : q.m_available_queue = 0 <;> simp [hx]

theorem draining_push_back (q : basic_buffer_queue B) (c : B) :
    draining (push_back q (available_queue q) c) = draining q := by
  simp only [draining, push_back, set_out_queue, available_queue, writing_queue, out_queue]
  by_cases hx : q.m_available_queue = 0 <;> simp [hx, lnot]

theorem push_back_available (q : basic_buffer_queue B) (i : Nat) (c : B) :
    (push_back q i c).m_available_queue = q.m_available_queue := by
  unfold push_back set_out_queue
  split <;> rfl

theorem push_back_is_writing (q : basic_buffer_queue B) (i : Nat) (c : B) :
    (push_back q i c).m_is_writing = q.m_is_writing := by
  unfold push_back set_out_queue
  split <;> rfl

theorem accumulating_clear (q : basic_buffer_queue B) :
    accumulating (clear q (writing_queue q)) = accumulating q := by
  simp only [accumulating, clear, set_out_queue, available_queue, writing_queue, out_queue]
  by_cases hx : q.m_available_queue = 0 <;> simp [hx, lnot]

theorem draining_clear (q : basic_buffer_queue B) :
    draining (clear q (writing_queue q)) = [] := by
  simp only [draining, clear, set_out_queue, writing_queue, out_queue]
  by_cases hx : lnot q.m_available_queue = 0 <;> simp [hx]

theorem clear_available (q : basic_buffer_queue B) (i : Nat) :
    (clear q i).m_available_queue = q.m_available_queue := by
  unfold clear set_out_queue
  split <;> rfl

/-- Changing only the flag changes neither slot. -/
theorem accumulating_with_flag (q : basic_buffer_queue B) (b : Bool) :
    accumulating { q with m_is_writing := b } = accumulating q := rfl

theorem draining_with_flag (q : basic_buffer_queue B) (b : Bool) :
    draining { q with m_is_writing := b } = draining q := rfl

/-- The first branch of `do_write_internal`: a write is marked in progress, or there is
nothing accumulated. -/
theorem do_write_internal_idle (q : basic_buffer_queue B) (a_h : H)
    (hq : q.m_is_writing = true ∨ accumulating q = []) :
    do_write_internal q a_h = (q, [Effect.handler_call a_h error_code.ok]) := by
  unfold do_write_internal
  rw [if_pos]
  rcases hq with hw | he
  · simp [hw]
  · have he1 : out_queue q (available_queue q) = [] := he
    simp [he1]

/-- The second branch of `do_write_internal`: the flag is set, the roles are flipped and the
accumulated chunks are handed to the transport. -/
theorem do_write_internal_start (q : basic_buffer_queue B) (a_h : H)
    (hw : q.m_is_writing = false) (hne : accumulating q ≠ []) :
    do_write_internal q a_h =
      (flip_queues { q with m_is_writing := true },
        [Effect.transport_write (accumulating q) ⟨a_h⟩]) := by
  unfold do_write_internal
  have hne1 : out_queue q (available_queue q) ≠ [] := hne
  rw [if_neg (by simp [hw, hne1])]
  have hd := draining_flip { q with m_is_writing := true }
  simp only [draining, accumulating_with_flag] at hd
  simp only [hd]

/-! ## Runs -/

theorem run_append (s : System B H) (xs ys : List (Step B H)) :
    run s (xs ++ ys) = (run s xs).bind (fun s1 => run s1 ys) := by
  induction xs generalizing s with
  | nil => rfl
  | cons x xs ih =>
    simp only [List.cons_append, run]
    cases hx : step s x with
    | none => rfl
    | some s1 => exact ih s1

theorem run_snoc (s : System B H) (xs : List (Step B H)) (x : Step B H) :
    run s (xs ++ [x]) = (run s xs).bind (fun s1 => step s1 x) := by
  rw [run_append]
  congr 1
  funext s1
  simp only [run]
  cases step s1 x <;> rfl

theorem enqueued_append (xs ys : List (Step B H)) :
    enqueued (xs ++ ys) = enqueued xs ++ enqueued ys := by
  induction xs with
  | nil => rfl
  | cons x xs ih => cases x <;> simp [enqueued, ih]

theorem writes_append (xs ys : List (Effect B H)) :
    writes (xs ++ ys) = writes xs ++ writes ys := by
  induction xs with
  | nil => rfl
  | cons x xs ih => cases x <;> simp [writes, ih]

theorem calls_append (xs ys : List (Effect B H)) :
    calls (xs ++ ys) = calls xs ++ calls ys := by
  induction xs with
  | nil => rfl
  | cons x xs ih => cases x <;> simp [calls, ih]

theorem reachable_fresh : Reachable (System.new : System B H) := ⟨[], rfl⟩

theorem reachable_step {s s1 : System B H} {x : Step B H} (hs : Reachable s)
    (hx : step s x = some s1) : Reachable s1 := by
  obtain ⟨tr, htr⟩ := hs
  exact ⟨tr ++ [x], by rw [run_snoc, htr]; exact hx⟩

theorem reachable_run {s s1 : System B H} (xs : List (Step B H)) (hs : Reachable s)
    (hx : run s xs = some s1) : Reachable s1 := by
  obtain ⟨tr, htr⟩ := hs
  exact ⟨tr ++ xs, by rw [run_append, htr]; exact hx⟩

/-! ## The invariant of reachable states -/

theorem Inv.fresh : Inv (System.new : System B H) :=
  { pending_le := by simp [System.new]
    pending_writing := by simp [System.new]
    idle_drained := fun _ => rfl
    index_le := Nat.zero_le 1 }

/-- The invariant survives `do_write_internal`. -/
theorem Inv.after_do_write_internal {s : System B H} (hs : Inv s) (a_h : H) :
    Inv (s.record (do_write_internal s.bq a_h)) := by
  by_cases hq : s.bq.m_is_writing = true ∨ accumulating s.bq = []
  · rw [do_write_internal_idle _ _ hq]
    exact
      { pending_le := by simpa [System.record, writes] using hs.pending_le
        pending_writing := by simpa [System.record, writes] using hs.pending_writing
        idle_drained := hs.idle_drained
        index_le := hs.index_le }
  · have hw : s.bq.m_is_writing = false := by
      cases hb : s.bq.m_is_writing with
      | false => rfl
      | true => exact absurd (Or.inl hb) hq
    have hne : accumulating s.bq ≠ [] := fun he => hq (Or.inr he)
    have hp : s.pending = [] := by
      cases hpe : s.pending with
      | nil => rfl
      | cons p ps =>
        have := (hs.pending_writing p (by simp [hpe])).1
        rw [hw] at this
        cases this
    rw [do_write_internal_start _ _ hw hne]
    exact
      { pending_le := by simp [System.record, writes, hp]
        pending_writing := by
          intro p hpm
          simp only [System.record, writes, hp, List.nil_append, List.mem_singleton] at hpm
          subst hpm
          exact ⟨rfl, draining_flip _⟩
        idle_drained := by
          intro hf
          simp [System.record, flip_queues] at hf
        index_le := lnot_le_one _ }

/-- The invariant survives `enqueue`. -/
theorem Inv.after_enqueue {s : System B H} (hs : Inv s) (c : B) :
    Inv { s with bq := enqueue s.bq c } :=
  { pending_le := hs.pending_le
    pending_writing := by
      intro p hp
      have := hs.pending_writing p hp
      simpa [enqueue, draining_push_back, push_back_is_writing] using this
    idle_drained := by
      intro hf
      have hf1 : s.bq.m_is_writing = false := by
        simpa [enqueue, push_back_is_writing] using hf
      simpa [enqueue, draining_push_back] using hs.idle_drained hf1
    index_le := by simpa [enqueue, push_back_available] using hs.index_le }

/-- The invariant survives every step. -/
theorem Inv.after_step {s s1 : System B H} {x : Step B H} (hs : Inv s)
    (hx : step s x = some s1) : Inv s1 := by
  cases x with
  | enqueue c =>
    simp only [step, Option.some.injEq] at hx
    subst hx
    exact hs.after_enqueue c
  | async_write h =>
    simp only [step, Option.some.injEq] at hx
    subst hx
    exact hs.after_do_write_internal h
  | async_write_buf c h =>
    simp only [step, Option.some.injEq] at hx
    subst hx
    have h1 : Inv { s with bq := enqueue s.bq c } := hs.after_enqueue c
    exact h1.after_do_write_internal h
  | completion i ec =>
    simp only [step] at hx
    cases hp : s.pending[i]? with
    | none => rw [hp] at hx; cases hx
    | some p =>
      rw [hp] at hx
      simp only [Option.some.injEq] at hx
      subst hx
      have hmem : p ∈ s.pending := List.getElem?_mem hp
      have hlen := hs.pending_le
      have herase : s.pending.eraseIdx i = [] := by
        cases hpe : s.pending with
        | nil => rw [hpe] at hmem; cases hmem
        | cons a as =>
          rw [hpe] at hlen hp
          have has : as = [] := by
            cases as with
            | nil => rfl
            | cons b bs => simp at hlen
          subst has
          cases i with
          | zero => rfl
          | succ j => simp at hp
      rw [herase]
      by_cases hec : ec.failed = true
      · simp only [write_wrapper.call, handle_write, hec, if_true]
        exact
          { pending_le := by simp [System.record, writes]
            pending_writing := by simp [System.record, writes]
            idle_drained := hs.idle_drained
            index_le := hs.index_le }
      · simp only [write_wrapper.call, handle_write, hec]
        have h2 : Inv ({ bq := { clear s.bq (writing_queue s.bq) with m_is_writing := false },
                         pending := [], log := s.log } : System B H) :=
          { pending_le := by simp
            pending_writing := by simp
            idle_drained := fun _ => draining_clear s.bq
            index_le := by simpa [clear_available] using hs.index_le }
        exact h2.after_do_write_internal p.2.m_handler

theorem Inv.after_run {s s1 : System B H} (xs : List (Step B H)) (hs : Inv s)
    (hx : run s xs = some s1) : Inv s1 := by
  induction xs generalizing s with
  | nil =>
    simp only [run, Option.some.injEq] at hx
    exact hx ▸ hs
  | cons x xs ih =>
    simp only [run] at hx
    cases h1 : step s x with
    | none => rw [h1] at hx; cases hx
    | some s2 =>
      rw [h1] at hx
      exact ih (hs.after_step h1) hx

theorem Reachable.inv {s : System B H} (hs : Reachable s) : Inv s := by
  obtain ⟨tr, htr⟩ := hs
  exact Inv.fresh.after_run tr htr

/-! ## The branches of `handle_write` and calls made during a write -/

theorem handle_write_failed (q : basic_buffer_queue B) (ec : error_code) (a_h : H)
    (hec : ec.failed = true) :
    handle_write q ec a_h = (q, [Effect.handler_call a_h ec]) := by
  simp [handle_write, hec]

/-- A successful completion with nothing accumulated: the draining slot is cleared, the
flag is cleared and the handler is told that the queue went idle. -/
theorem handle_write_ok_idle (q : basic_buffer_queue B) (ec : error_code) (a_h : H)
    (hec : ec.failed = false) (he : accumulating q = []) :
    handle_write q ec a_h =
      ({ clear q (writing_queue q) with m_is_writing := false },
        [Effect.handler_call a_h error_code.ok]) := by
  simp only [handle_write, hec, Bool.false_eq_true, if_false]
  apply do_write_internal_idle
  right
  rw [accumulating_with_flag, accumulating_clear]
  exact he

/-- A successful completion with chunks accumulated: the draining slot is cleared, the
roles are flipped and the accumulated chunks are submitted as one batch. -/
theorem handle_write_ok_start (q : basic_buffer_queue B) (ec : error_code) (a_h : H)
    (hec : ec.failed = false) (hne : accumulating q ≠ []) :
    handle_write q ec a_h =
      (flip_queues { clear q (writing_queue q) with m_is_writing := true },
        [Effect.transport_write (accumulating q) ⟨a_h⟩]) := by
  simp only [handle_write, hec, Bool.false_eq_true, if_false]
  have h1 : accumulating { clear q (writing_queue q) with m_is_writing := false }
      = accumulating q := accumulating_clear q
  rw [do_write_internal_start _ _ rfl (by rw [h1]; exact hne), h1]

/-- With at most one write pending, the completed write is the only one. -/
theorem Inv.pending_eq {s : System B H} (hs : Inv s) {i : Nat}
    {p : List B × write_wrapper H} (hp : s.pending[i]? = some p) :
    s.pending = [p] ∧ i = 0 ∧ s.pending.eraseIdx i = [] := by
  have hlen := hs.pending_le
  cases hpe : s.pending with
  | nil => rw [hpe] at hp; simp at hp
  | cons a as =>
    rw [hpe] at hlen hp
    have has : as = [] := by
      cases as with
      | nil => rfl
      | cons b bs => simp at hlen
    subst has
    cases i with
    | zero =>
      simp at hp
      subst hp
      exact ⟨rfl, rfl, rfl⟩
    | succ j => simp at hp

/-- While `m_is_writing` is set, a public call leaves the pending writes, the flag, the
index, the draining slot and the list of submitted writes as they are, and appends to
the accumulating slot exactly the chunk it enqueues, if any. -/
theorem busy_step {s s1 : System B H} {x : Step B H} (hw : s.bq.m_is_writing = true)
    (hnc : x.is_call = true) (hx : step s x = some s1) :
    s1.pending = s.pending ∧ s1.bq.m_is_writing = true ∧
      s1.bq.m_available_queue = s.bq.m_available_queue ∧
      accumulating s1.bq = accumulating s.bq ++ enqueued [x] ∧
      draining s1.bq = draining s.bq ∧ writes s1.log = writes s.log := by
  cases x with
  | enqueue c =>
    simp only [step, Option.some.injEq] at hx
    subst hx
    refine ⟨rfl, ?_, ?_, ?_, ?_, rfl⟩
    · simpa [enqueue, push_back_is_writing] using hw
    · simp [enqueue, push_back_available]
    · simp [enqueue, accumulating_push_back, enqueued]
    · simp [enqueue, draining_push_back]
  | async_write a_h =>
    simp only [step, Option.some.injEq] at hx
    subst hx
    rw [async_write, do_write_internal_idle _ _ (Or.inl hw)]
    simp [System.record, writes, writes_append, enqueued, hw]
  | async_write_buf c a_h =>
    simp only [step, Option.some.injEq] at hx
    subst hx
    rw [async_write_buf, do_write_internal_idle _ _
      (Or.inl ((push_back_is_writing _ _ _).trans hw))]
    simp [System.record, writes, writes_append, enqueued, hw, push_back_is_writing,
      push_back_available, accumulating_push_back, draining_push_back]
  | completion i ec => cases hnc

theorem busy_run {s s1 : System B H} (xs : List (Step B H)) (hw : s.bq.m_is_writing = true)
    (hnc : ∀ y ∈ xs, y.is_call = true) (hx : run s xs = some s1) :
    s1.pending = s.pending ∧ s1.bq.m_is_writing = true ∧
      s1.bq.m_available_queue = s.bq.m_available_queue ∧
      accumulating s1.bq = accumulating s.bq ++ enqueued xs ∧
      draining s1.bq = draining s.bq ∧ writes s1.log = writes s.log := by
  induction xs generalizing s with
  | nil =>
    simp only [run, Option.some.injEq] at hx
    subst hx
    simp [enqueued, hw]
  | cons x xs ih =>
    simp only [run] at hx
    cases h1 : step s x with
    | none => rw [h1] at hx; cases hx
    | some s2 =>
      rw [h1] at hx
      obtain ⟨a1, a2, a3, a4, a5, a6⟩ :=
        busy_step hw (hnc x (List.mem_cons_self x xs)) h1
      obtain ⟨b1, b2, b3, b4, b5, b6⟩ :=
        ih a2 (fun y hy => hnc y (List.mem_cons_of_mem x hy)) hx
      refine ⟨b1.trans a1, b2, b3.trans a3, ?_, b5.trans a5, b6.trans a6⟩
      rw [b4, a4, List.append_assoc, ← enqueued_append]
      rfl

/-- When `do_write_internal` submits a write, that write becomes the only pending one, the
flag is set and the new accumulating slot is empty. -/
theorem Inv.submitted {s : System B H} (hs : Inv s) (a_h : H) {b : List B}
    {w : write_wrapper H} (hsub : writes (do_write_internal s.bq a_h).2 = [(b, w)]) :
    (s.record (do_write_internal s.bq a_h)).pending = [(b, w)] ∧
      (do_write_internal s.bq a_h).1.m_is_writing = true ∧
      accumulating (do_write_internal s.bq a_h).1 = [] := by
  by_cases hq : s.bq.m_is_writing = true ∨ accumulating s.bq = []
  · rw [do_write_internal_idle _ _ hq] at hsub
    simp [writes] at hsub
  · have hw : s.bq.m_is_writing = false := by
      cases hb : s.bq.m_is_writing with
      | false => rfl
      | true => exact absurd (Or.inl hb) hq
    have hne : accumulating s.bq ≠ [] := fun he => hq (Or.inr he)
    have hp : s.pending = [] := by
      cases hpe : s.pending with
      | nil => rfl
      | cons p ps =>
        have := (hs.pending_writing p (by simp [hpe])).1
        rw [hw] at this
        cases this
    rw [do_write_internal_start _ _ hw hne] at hsub ⊢
    simp only [writes] at hsub
    refine ⟨by simp only [System.record, hp, writes, List.nil_append, hsub], rfl, ?_⟩
    rw [accumulating_flip, draining_with_flag]
    exact hs.idle_drained hw

/-- The state handed to `do_write_internal` by a successful completion satisfies the
invariant. -/
theorem Inv.after_clear {s : System B H} (hs : Inv s) {i : Nat}
    {p : List B × write_wrapper H} (hp : s.pending[i]? = some p) :
    Inv ({ bq := { clear s.bq (writing_queue s.bq) with m_is_writing := false },
           pending := s.pending.eraseIdx i, log := s.log } : System B H) := by
  rw [(hs.pending_eq hp).2.2]
  exact
    { pending_le := by simp
      pending_writing := by simp
      idle_drained := fun _ => draining_clear s.bq
      index_le := by simpa [clear_available] using hs.index_le }

/-- A step that submits a write leaves exactly that write pending, with the flag set and
an empty accumulating slot. -/
theorem Inv.submitting_step {s s1 : System B H} {x : Step B H} (hs : Inv s)
    (hx : step s x = some s1) {b : List B} {w : write_wrapper H}
    (hsub : writes s1.log = writes s.log ++ [(b, w)]) :
    s1.pending = [(b, w)] ∧ s1.bq.m_is_writing = true ∧ accumulating s1.bq = [] := by
  cases x with
  | enqueue c =>
    simp only [step, Option.some.injEq] at hx
    subst hx
    have := congrArg List.length hsub
    simp at this
  | async_write a_h =>
    simp only [step, Option.some.injEq] at hx
    subst hx
    simp only [System.record, writes_append, async_write] at hsub
    exact hs.submitted a_h (List.append_cancel_left hsub)
  | async_write_buf c a_h =>
    simp only [step, Option.some.injEq] at hx
    subst hx
    simp only [System.record, writes_append, async_write_buf] at hsub
    exact (hs.after_enqueue c).submitted a_h (List.append_cancel_left hsub)
  | completion i ec =>
    simp only [step] at hx
    cases hp : s.pending[i]? with
    | none => rw [hp] at hx; cases hx
    | some p =>
      rw [hp] at hx
      simp only [Option.some.injEq] at hx
      subst hx
      by_cases hec : ec.failed = true
      · simp [System.record, writes_append, write_wrapper.call, handle_write, hec, writes]
          at hsub
      · simp only [System.record, writes_append, write_wrapper.call, handle_write, hec] at hsub
        simp only [write_wrapper.call, handle_write, hec]
        exact (hs.after_clear hp).submitted p.2.m_handler (List.append_cancel_left hsub)

/-! ## What the transport has seen -/

theorem transported_record (s : System B H) (r : basic_buffer_queue B × List (Effect B H)) :
    transported (s.record r) = transported s ++ ((writes r.2).map Prod.fst).flatten := by
  simp [transported, System.record, writes_append]

/-- Across `do_write_internal`, what was transported followed by what is accumulated
does not change, as long as an idle queue has an empty draining slot. -/
theorem transported_do_write_internal (s : System B H)
    (hd : s.bq.m_is_writing = false → draining s.bq = []) (a_h : H) :
    transported (s.record (do_write_internal s.bq a_h))
        ++ accumulating (do_write_internal s.bq a_h).1
      = transported s ++ accumulating s.bq := by
  rw [transported_record]
  by_cases hq : s.bq.m_is_writing = true ∨ accumulating s.bq = []
  · rw [do_write_internal_idle _ _ hq]
    simp [writes]
  · have hw : s.bq.m_is_writing = false := by
      cases hb : s.bq.m_is_writing with
      | false => rfl
      | true => exact absurd (Or.inl hb) hq
    have hne : accumulating s.bq ≠ [] := fun he => hq (Or.inr he)
    rw [do_write_internal_start _ _ hw hne]
    have hacc : accumulating (flip_queues { s.bq with m_is_writing := true }) = [] := by
      rw [accumulating_flip, draining_with_flag]
      exact hd hw
    simp [writes, hacc]

/-- One step extends "transported, then accumulated" by exactly the chunk the step
enqueues, if any. -/
theorem transported_step {s s1 : System B H} {x : Step B H} (hs : Inv s)
    (hx : step s x = some s1) :
    transported s1 ++ accumulating s1.bq
      = transported s ++ accumulating s.bq ++ enqueued [x] := by
  cases x with
  | enqueue c =>
    simp only [step, Option.some.injEq] at hx
    subst hx
    simp [transported, enqueue, accumulating_push_back, enqueued]
  | async_write h =>
    simp only [step, Option.some.injEq] at hx
    subst hx
    simpa [enqueued, async_write, System.record] using
      transported_do_write_internal s hs.idle_drained h
  | async_write_buf c h =>
    simp only [step, Option.some.injEq] at hx
    subst hx
    have h1 := transported_do_write_internal { s with bq := enqueue s.bq c }
      (hs.after_enqueue c).idle_drained h
    have h2 : transported ({ s with bq := enqueue s.bq c } : System B H) = transported s := rfl
    simp only [h2, enqueue, accumulating_push_back] at h1
    simpa [enqueued, async_write_buf, System.record] using h1
  | completion i ec =>
    simp only [step] at hx
    cases hp : s.pending[i]? with
    | none => rw [hp] at hx; cases hx
    | some p =>
      rw [hp] at hx
      simp only [Option.some.injEq] at hx
      subst hx
      by_cases hec : ec.failed = true
      · simp [write_wrapper.call, handle_write, hec, transported, System.record, writes,
          writes_append, enqueued]
      · simp only [write_wrapper.call, handle_write, hec]
        have h1 := transported_do_write_internal
          ({ bq := { clear s.bq (writing_queue s.bq) with m_is_writing := false },
             pending := s.pending.eraseIdx i, log := s.log } : System B H)
          (fun _ => draining_clear s.bq) p.2.m_handler
        have h2 : transported ({ bq := { clear s.bq (writing_queue s.bq) with
              m_is_writing := false }, pending := s.pending.eraseIdx i, log := s.log } :
              System B H) = transported s := rfl
        have h3 : accumulating { clear s.bq (writing_queue s.bq) with m_is_writing := false }
            = accumulating s.bq := accumulating_clear s.bq
        simp only [h2, h3] at h1
        simpa [enqueued, System.record] using h1

theorem transported_run {s s1 : System B H} (xs : List (Step B H)) (hs : Inv s)
    (hx : run s xs = some s1) :
    transported s1 ++ accumulating s1.bq
      = transported s ++ accumulating s.bq ++ enqueued xs := by
  induction xs generalizing s with
  | nil =>
    simp only [run, Option.some.injEq] at hx
    subst hx
    simp [enqueued]
  | cons x xs ih =>
    simp only [run] at hx
    cases h1 : step s x with
    | none => rw [h1] at hx; cases hx
    | some s2 =>
      rw [h1] at hx
      rw [ih (hs.after_step h1) hx, transported_step hs h1]
      have : enqueued (x :: xs) = enqueued [x] ++ enqueued xs := enqueued_append [x] xs
      rw [this]
      simp

/-! ## Ordering and single write in flight -/

/-- C1 (ordering, P1/I2): after any finite sequence of steps from a freshly constructed
queue, all batches submitted to the transport so far, concatenated, followed by the
contents of the accumulating slot, are exactly the chunks enqueued so far in enqueue
order; in particular what the transport has seen is an initial segment of the enqueued
chunks, nothing duplicated or reordered. -/
theorem ordering (tr : List (Step B H)) (s : System B H)
    (h : run System.new tr = some s) :
    transported s ++ accumulating s.bq = enqueued tr ∧ transported s <+: enqueued tr := by
  have h1 := transported_run tr Inv.fresh h
  have h2 : transported (System.new : System B H) ++ accumulating (System.new : System B H).bq
      = [] := rfl
  rw [List.append_assoc, ← List.append_assoc, h2, List.nil_append] at h1
  exact ⟨h1, ⟨accumulating s.bq, h1⟩⟩

/-- C2 (at most one write in flight, P2/I1): in every state reached from a freshly
constructed queue at most one submitted write is uncompleted, and a public call made
while a write is uncompleted submits nothing to the transport. -/
theorem at_most_one_in_flight (tr : List (Step B H)) (s : System B H)
    (h : run System.new tr = some s) :
    s.pending.length ≤ 1 ∧
      ∀ (x : Step B H) (s1 : System B H), step s x = some s1 →
        x.is_call = true → s.pending ≠ [] →
          writes s1.log = writes s.log ∧ s1.pending = s.pending := by
  have hs : Inv s := Inv.fresh.after_run tr h
  refine ⟨hs.pending_le, ?_⟩
  intro x s1 hx hnc hne
  have hw : s.bq.m_is_writing = true := by
    cases hpe : s.pending with
    | nil => exact absurd hpe hne
    | cons p ps => exact (hs.pending_writing p (by simp [hpe])).1
  cases x with
  | enqueue c =>
    simp only [step, Option.some.injEq] at hx
    subst hx
    exact ⟨rfl, rfl⟩
  | async_write a_h =>
    simp only [step, Option.some.injEq] at hx
    subst hx
    rw [async_write, do_write_internal_idle _ _ (Or.inl hw)]
    simp [System.record, writes, writes_append]
  | async_write_buf c a_h =>
    simp only [step, Option.some.injEq] at hx
    subst hx
    rw [async_write_buf, do_write_internal_idle _ _
      (Or.inl ((push_back_is_writing _ _ _).trans hw))]
    simp [System.record, writes, writes_append]
  | completion i ec => cases hnc

theorem scenario_run : run System.new scenario = some scenario_state := rfl

theorem scenario_reachable : Reachable scenario_state := ⟨scenario, rfl⟩

theorem ordering_witness :
    run System.new scenario = some scenario_state ∧
      (transported scenario_state ++ accumulating scenario_state.bq = enqueued scenario ∧
        transported scenario_state <+: enqueued scenario) :=
  ⟨rfl, ordering scenario scenario_state rfl⟩

theorem at_most_one_in_flight_witness :
    run System.new scenario = some scenario_state ∧
      (scenario_state.pending.length ≤ 1 ∧
        ∀ (x : Step Nat Nat) (s1 : System Nat Nat), step scenario_state x = some s1 →
          x.is_call = true → scenario_state.pending ≠ [] →
            writes s1.log = writes scenario_state.log ∧
              s1.pending = scenario_state.pending) :=
  ⟨rfl, at_most_one_in_flight scenario scenario_state rfl⟩

/-! ## A failed write -/

/-- C3 (failure preserves data, P5), evaluated on the code: after the write of chunk 1
has failed, chunk 2 is still in the accumulating slot, but the flush that follows submits
nothing: the transport has been given the single batch `[1]`, handler 7 is called at once
with the no-error status, and chunk 2 stays where it was. -/
theorem flush_after_failure_submits_nothing :
    run System.new failure_then_flush = some
      { bq := { m_q1 := [1], m_q2 := [2], m_available_queue := 1, m_is_writing := true }
        pending := []
        log := [Effect.transport_write [1] ⟨0⟩, Effect.handler_call 0 ⟨5⟩,
          Effect.handler_call 7 error_code.ok] } :=
  rfl

/-- C4 (the flag is exact), evaluated on the code: after the only submitted write has
completed with a failure status no write is pending, and `m_is_writing` is still true. -/
theorem flag_set_with_nothing_pending :
    ∃ s : System Nat Nat, run System.new failed_write = some s ∧ s.pending = [] ∧
      s.bq.m_is_writing = true :=
  ⟨{ bq := { m_q1 := [1], m_q2 := [], m_available_queue := 1, m_is_writing := true }
     pending := []
     log := [Effect.transport_write [1] ⟨0⟩, Effect.handler_call 0 ⟨5⟩] }, rfl, rfl, rfl⟩

/-! ## Coalescing, idle flush, starting a write -/

theorem loaded_reachable : Reachable loaded_state := ⟨loading, rfl⟩

/-- C5 (coalescing, P3): let a step of a reachable state submit a write `(b, w)`, and let
only public calls follow, enqueueing the chunks `enqueued mids` (at least one). Then the
write is still pending, and its successful completion makes `handle_write` submit exactly
one new write, whose batch is exactly those chunks in order, registered with the same
handler; nothing else is added to the log. -/
theorem coalescing (s0 s1 s2 : System B H) (x : Step B H) (b : List B)
    (w : write_wrapper H) (mids : List (Step B H)) (ec : error_code)
    (hr : Reachable s0) (hx : step s0 x = some s1)
    (hsub : writes s1.log = writes s0.log ++ [(b, w)])
    (hmid : ∀ y ∈ mids, y.is_call = true) (hrun : run s1 mids = some s2)
    (hN : 1 ≤ (enqueued mids).length) (hok : ec.failed = false) :
    s2.pending = [(b, w)] ∧
      ∃ s3, step s2 (Step.completion 0 ec) = some s3 ∧
        s3.log = s2.log ++ [Effect.transport_write (enqueued mids) w] ∧
        s3.pending = [(enqueued mids, w)] := by
  obtain ⟨hp1, hw1, ha1⟩ := hr.inv.submitting_step hx hsub
  obtain ⟨hp2, _, _, ha2, _, _⟩ := busy_run mids hw1 hmid hrun
  rw [ha1, List.nil_append] at ha2
  rw [hp1] at hp2
  have hne : accumulating s2.bq ≠ [] := by
    rw [ha2]
    intro he
    rw [he] at hN
    simp at hN
  refine ⟨hp2, ?_⟩
  simp only [step, hp2, List.getElem?_cons_zero, write_wrapper.call,
    handle_write_ok_start _ _ _ hok hne, ha2]
  exact ⟨_, rfl, rfl, rfl⟩

theorem coalescing_witness :
    run flushed_state during_write = some coalesced_state ∧
      (coalesced_state.pending = [([1, 2], ⟨0⟩)] ∧
        ∃ s3, step coalesced_state (Step.completion 0 error_code.ok) = some s3 ∧
          s3.log = coalesced_state.log ++ [Effect.transport_write [3, 4] ⟨0⟩] ∧
          s3.pending = [([3, 4], ⟨0⟩)]) :=
  ⟨rfl, coalescing loaded_state flushed_state coalesced_state (Step.async_write 0) [1, 2] ⟨0⟩
    during_write error_code.ok loaded_reachable rfl rfl (by decide) rfl (by decide) rfl⟩

/-- C6 (idle correctness, P4): in any state with `m_is_writing = false` and an empty
accumulating slot, `async_write(socket, h)` calls `h` once with the no-error status,
submits nothing, and leaves the queue (both slots, index, flag) and the pending writes
unchanged. -/
theorem idle_flush (s : System B H) (a_h : H) (_hw : s.bq.m_is_writing = false)
    (he : accumulating s.bq = []) :
    async_write s.bq a_h = (s.bq, [Effect.handler_call a_h error_code.ok]) ∧
      step s (Step.async_write a_h) = some
        { bq := s.bq, pending := s.pending,
          log := s.log ++ [Effect.handler_call a_h error_code.ok] } := by
  have h1 : async_write s.bq a_h = (s.bq, [Effect.handler_call a_h error_code.ok]) :=
    do_write_internal_idle _ _ (Or.inr he)
  refine ⟨h1, ?_⟩
  simp [step, h1, System.record, writes]

theorem idle_flush_witness :
    async_write (System.new : System Nat Nat).bq 7
        = ((System.new : System Nat Nat).bq, [Effect.handler_call 7 error_code.ok]) ∧
      step (System.new : System Nat Nat) (Step.async_write 7) = some
        { bq := (System.new : System Nat Nat).bq, pending := (System.new : System Nat Nat).pending,
          log := (System.new : System Nat Nat).log ++ [Effect.handler_call 7 error_code.ok] } :=
  idle_flush System.new 7 rfl rfl

/-- C7 (starting a write): in a reachable state with `m_is_writing = false` and a
non-empty accumulating slot `L`, `async_write(socket, h)` sets the flag, exchanges the two
indices without touching `m_q1` or `m_q2`, submits exactly one write with batch `L`
registered with `h`, calls no handler, and leaves `L` in the draining slot and the
accumulating slot empty. -/
theorem starting_write (s : System B H) (a_h : H) (L : List B) (hr : Reachable s)
    (hw : s.bq.m_is_writing = false) (hL : accumulating s.bq = L) (hne : L ≠ []) :
    ∃ s1, step s (Step.async_write a_h) = some s1 ∧ s1.bq.m_is_writing = true ∧
      available_queue s1.bq = writing_queue s.bq ∧
      writing_queue s1.bq = available_queue s.bq ∧
      s1.bq.m_q1 = s.bq.m_q1 ∧ s1.bq.m_q2 = s.bq.m_q2 ∧
      s1.log = s.log ++ [Effect.transport_write L ⟨a_h⟩] ∧
      s1.pending = [(L, ⟨a_h⟩)] ∧ calls s1.log = calls s.log ∧
      draining s1.bq = L ∧ accumulating s1.bq = [] := by
  have hi := hr.inv
  have hp : s.pending = [] := by
    cases hpe : s.pending with
    | nil => rfl
    | cons p ps =>
      have := (hi.pending_writing p (by simp [hpe])).1
      rw [hw] at this
      cases this
  have h1 := do_write_internal_start s.bq a_h hw (by rw [hL]; exact hne)
  rw [hL] at h1
  have hstep : step s (Step.async_write a_h) = some
      (s.record (flip_queues { s.bq with m_is_writing := true },
        [Effect.transport_write L ⟨a_h⟩])) := by
    simp only [step, async_write, h1]
  refine ⟨_, hstep, rfl, rfl, lnot_lnot _ hi.index_le, rfl, rfl, rfl, ?_, ?_, ?_, ?_⟩
  · simp [System.record, hp, writes]
  · simp [System.record, calls_append, calls]
  · show draining (flip_queues { s.bq with m_is_writing := true }) = L
    rw [draining_flip, accumulating_with_flag, hL]
  · show accumulating (flip_queues { s.bq with m_is_writing := true }) = []
    rw [accumulating_flip, draining_with_flag]
    exact hi.idle_drained hw

theorem starting_write_witness :
    ∃ s1, step loaded_state (Step.async_write 0) = some s1 ∧ s1.bq.m_is_writing = true ∧
      available_queue s1.bq = writing_queue loaded_state.bq ∧
      writing_queue s1.bq = available_queue loaded_state.bq ∧
      s1.bq.m_q1 = loaded_state.bq.m_q1 ∧ s1.bq.m_q2 = loaded_state.bq.m_q2 ∧
      s1.log = loaded_state.log ++ [Effect.transport_write [1, 2] ⟨0⟩] ∧
      s1.pending = [([1, 2], ⟨0⟩)] ∧ calls s1.log = calls loaded_state.log ∧
      draining s1.bq = [1, 2] ∧ accumulating s1.bq = [] :=
  starting_write loaded_state 0 [1, 2] ⟨loading, rfl⟩ rfl rfl (by decide)

/-! ## Failure, the draining slot, enqueue -/

/-- C8 (failure reporting without retry): in a reachable state where the write `(b, w)`
is pending, its completion with a failure status `ec` calls the handler stored in `w`
once with that same `ec`, submits nothing, and leaves the whole queue as it was: both
slots and `m_available_queue` are unchanged. No write is pending afterwards. -/
theorem failure_reported (s : System B H) (i : Nat) (b : List B) (w : write_wrapper H)
    (ec : error_code) (hr : Reachable s) (hp : s.pending[i]? = some (b, w))
    (hec : ec.failed = true) :
    handle_write s.bq ec w.m_handler = (s.bq, [Effect.handler_call w.m_handler ec]) ∧
      step s (Step.completion i ec) = some
        { bq := s.bq, pending := [], log := s.log ++ [Effect.handler_call w.m_handler ec] } := by
  have h1 := handle_write_failed s.bq ec w.m_handler hec
  refine ⟨h1, ?_⟩
  simp only [step, hp, write_wrapper.call, h1, System.record, (hr.inv.pending_eq hp).2.2,
    writes, List.append_nil]

theorem failure_reported_witness :
    handle_write scenario_state.bq ⟨5⟩ (0 : Nat)
        = (scenario_state.bq, [Effect.handler_call 0 ⟨5⟩]) ∧
      step scenario_state (Step.completion 0 ⟨5⟩) = some
        { bq := scenario_state.bq, pending := [],
          log := scenario_state.log ++ [Effect.handler_call 0 ⟨5⟩] } :=
  failure_reported scenario_state 0 [1, 2] ⟨0⟩ ⟨5⟩ scenario_reachable rfl rfl

/-- C9 (the draining slot is stable while written, I3): in a reachable state every
pending write has the contents of the draining slot as its batch; a public call made while
a write is pending leaves the draining slot unchanged; and a step that empties a non-empty
draining slot is a completion with a success status. -/
theorem draining_stable (s : System B H) (hr : Reachable s) :
    (∀ p ∈ s.pending, draining s.bq = p.1) ∧
      (∀ (x : Step B H) (s1 : System B H), step s x = some s1 → s.pending ≠ [] →
        x.is_call = true → draining s1.bq = draining s.bq) ∧
      (∀ (x : Step B H) (s1 : System B H), step s x = some s1 → draining s.bq ≠ [] →
        draining s1.bq = [] → ∃ i ec, x = Step.completion i ec ∧ ec.failed = false) := by
  have hi := hr.inv
  refine ⟨fun p hp => (hi.pending_writing p hp).2, ?_, ?_⟩
  · intro x s1 hx hne hc
    have hw : s.bq.m_is_writing = true := by
      cases hpe : s.pending with
      | nil => exact absurd hpe hne
      | cons p ps => exact (hi.pending_writing p (by simp [hpe])).1
    exact (busy_step hw hc hx).2.2.2.2.1
  · intro x s1 hx hne he
    have hw : s.bq.m_is_writing = true := by
      cases hb : s.bq.m_is_writing with
      | true => rfl
      | false => exact absurd (hi.idle_drained hb) hne
    cases hc : x.is_call with
    | true =>
      have := (busy_step hw hc hx).2.2.2.2.1
      rw [he] at this
      exact absurd this.symm hne
    | false =>
      cases x with
      | completion i ec =>
        refine ⟨i, ec, rfl, ?_⟩
        cases hec : ec.failed with
        | false => rfl
        | true =>
          simp only [step] at hx
          cases hp : s.pending[i]? with
          | none => rw [hp] at hx; cases hx
          | some p =>
            rw [hp] at hx
            simp only [Option.some.injEq, write_wrapper.call,
              handle_write_failed _ _ _ hec] at hx
            subst hx
            exact absurd he hne
      | enqueue c => cases hc
      | async_write a_h => cases hc
      | async_write_buf c a_h => cases hc

theorem draining_stable_witness :
    (∀ p ∈ scenario_state.pending, draining scenario_state.bq = p.1) ∧
      (∀ (x : Step Nat Nat) (s1 : System Nat Nat), step scenario_state x = some s1 →
        scenario_state.pending ≠ [] → x.is_call = true →
          draining s1.bq = draining scenario_state.bq) ∧
      (∀ (x : Step Nat Nat) (s1 : System Nat Nat), step scenario_state x = some s1 →
        draining scenario_state.bq ≠ [] → draining s1.bq = [] →
          ∃ i ec, x = Step.completion i ec ∧ ec.failed = false) :=
  draining_stable scenario_state ⟨scenario, rfl⟩

/-- C10 (enqueue is append-only, I4): `enqueue(c)` turns the contents `L` of the
accumulating slot into `L ++ [c]` and changes nothing else: the draining slot,
`m_available_queue` and `m_is_writing` are unchanged, nothing is submitted to the
transport (the pending writes are the same) and no handler is called (the log is the
same). -/
theorem enqueue_appends (s : System B H) (c : B) :
    accumulating (enqueue s.bq c) = accumulating s.bq ++ [c] ∧
      draining (enqueue s.bq c) = draining s.bq ∧
      (enqueue s.bq c).m_available_queue = s.bq.m_available_queue ∧
      (enqueue s.bq c).m_is_writing = s.bq.m_is_writing ∧
      step s (Step.enqueue c) = some
        { bq := enqueue s.bq c, pending := s.pending, log := s.log } :=
  ⟨accumulating_push_back s.bq c, draining_push_back s.bq c, push_back_available _ _ _,
    push_back_is_writing _ _ _, rfl⟩

/-! ## The chain of writes -/

/-- Both deques are empty when both roles are. -/
theorem slots_empty (q : basic_buffer_queue B) (ha : accumulating q = [])
    (hd : draining q = []) : q.m_q1 = [] ∧ q.m_q2 = [] := by
  simp only [accumulating, draining, out_queue, available_queue, writing_queue] at ha hd
  by_cases hx : q.m_available_queue = 0
  · simp [hx, lnot] at ha hd
    exact ⟨ha, hd⟩
  · simp [hx, lnot] at ha hd
    exact ⟨hd, ha⟩

/-- A successful completion with nothing accumulated. -/
theorem completion_ok_idle {s : System B H} (hs : Inv s) {i : Nat} {b : List B}
    {w : write_wrapper H} {ec : error_code} (hp : s.pending[i]? = some (b, w))
    (hec : ec.failed = false) (he : accumulating s.bq = []) :
    step s (Step.completion i ec) = some
      { bq := { clear s.bq (writing_queue s.bq) with m_is_writing := false }
        pending := []
        log := s.log ++ [Effect.handler_call w.m_handler error_code.ok] } := by
  simp only [step, hp, write_wrapper.call, handle_write_ok_idle _ _ _ hec he, System.record,
    (hs.pending_eq hp).2.2, writes, List.append_nil]

/-- A successful completion with chunks accumulated. -/
theorem completion_ok_start {s : System B H} (hs : Inv s) {i : Nat} {b : List B}
    {w : write_wrapper H} {ec : error_code} (hp : s.pending[i]? = some (b, w))
    (hec : ec.failed = false) (hne : accumulating s.bq ≠ []) :
    step s (Step.completion i ec) = some
      { bq := flip_queues { clear s.bq (writing_queue s.bq) with m_is_writing := true }
        pending := [(accumulating s.bq, w)]
        log := s.log ++ [Effect.transport_write (accumulating s.bq) w] } := by
  simp only [step, hp, write_wrapper.call, handle_write_ok_start _ _ _ hec hne, System.record,
    (hs.pending_eq hp).2.2, writes, List.nil_append]

/-- C11 (the chain runs to idle): in a reachable state let the write `(b, w)` be pending
and let only successful completions follow. With an empty accumulating slot the first
completion submits nothing and calls the handler of `w` once with the no-error status.
With a non-empty accumulating slot `L` the first completion submits exactly one write with
batch `L` and calls no handler, and the second one submits nothing and calls the handler
once with the no-error status. Either way the chain ends with nothing pending,
`m_is_writing = false` and both deques empty. -/
theorem chain_runs_to_idle (s : System B H) (i : Nat) (b : List B) (w : write_wrapper H)
    (ec1 ec2 : error_code) (hr : Reachable s) (hp : s.pending[i]? = some (b, w))
    (h1 : ec1.failed = false) (h2 : ec2.failed = false) :
    (accumulating s.bq = [] →
      ∃ s1, step s (Step.completion i ec1) = some s1 ∧
        s1.log = s.log ++ [Effect.handler_call w.m_handler error_code.ok] ∧
        s1.pending = [] ∧ s1.bq.m_is_writing = false ∧
        s1.bq.m_q1 = [] ∧ s1.bq.m_q2 = []) ∧
      (accumulating s.bq ≠ [] →
        ∃ s1 s2, step s (Step.completion i ec1) = some s1 ∧
          s1.log = s.log ++ [Effect.transport_write (accumulating s.bq) w] ∧
          s1.pending = [(accumulating s.bq, w)] ∧
          step s1 (Step.completion 0 ec2) = some s2 ∧
          s2.log = s1.log ++ [Effect.handler_call w.m_handler error_code.ok] ∧
          s2.pending = [] ∧ s2.bq.m_is_writing = false ∧
          s2.bq.m_q1 = [] ∧ s2.bq.m_q2 = []) := by
  have hi := hr.inv
  constructor
  · intro he
    refine ⟨_, completion_ok_idle hi hp h1 he, rfl, rfl, rfl, ?_⟩
    apply slots_empty
    · show accumulating { clear s.bq (writing_queue s.bq) with m_is_writing := false } = []
      rw [accumulating_with_flag, accumulating_clear]
      exact he
    · exact draining_clear s.bq
  · intro hne
    have hs1 := completion_ok_start hi hp h1 hne
    have hi1 := hi.after_step hs1
    have he1 : accumulating (flip_queues
        { clear s.bq (writing_queue s.bq) with m_is_writing := true }) = [] := by
      rw [accumulating_flip, draining_with_flag]
      exact draining_clear s.bq
    have hp1 : ({ bq := flip_queues { clear s.bq (writing_queue s.bq) with m_is_writing := true }
                  pending := [(accumulating s.bq, w)]
                  log := s.log ++ [Effect.transport_write (accumulating s.bq) w] } :
                System B H).pending[0]? = some (accumulating s.bq, w) := rfl
    have hs2 := completion_ok_idle hi1 hp1 h2 he1
    refine ⟨_, _, hs1, rfl, rfl, hs2, rfl, rfl, rfl, ?_⟩
    apply slots_empty
    · show accumulating { clear _ (writing_queue _) with m_is_writing := false } = []
      rw [accumulating_with_flag, accumulating_clear]
      exact he1
    · exact draining_clear _

theorem chain_runs_to_idle_witness :
    ∃ s1 s2, step scenario_state (Step.completion 0 error_code.ok) = some s1 ∧
      s1.log = scenario_state.log ++ [Effect.transport_write [3] ⟨0⟩] ∧
      s1.pending = [([3], ⟨0⟩)] ∧
      step s1 (Step.completion 0 error_code.ok) = some s2 ∧
      s2.log = s1.log ++ [Effect.handler_call 0 error_code.ok] ∧
      s2.pending = [] ∧ s2.bq.m_is_writing = false ∧
      s2.bq.m_q1 = [] ∧ s2.bq.m_q2 = [] :=
  (chain_runs_to_idle scenario_state 0 [1, 2] ⟨0⟩ error_code.ok error_code.ok
    scenario_reachable rfl rfl rfl).2 (by decide)

/-! ## Where a called handler comes from -/

theorem supplied_append (xs ys : List (Step B H)) :
    supplied (xs ++ ys) = supplied xs ++ supplied ys := by
  induction xs with
  | nil => rfl
  | cons x xs ih => cases x <;> simp [supplied, ih]

/-- The two possible outcomes of `do_write_internal`: one call of the handler with the
no-error status, or one write registered with a completion object holding the handler. -/
theorem do_write_internal_effects (q : basic_buffer_queue B) (a_h : H) :
    (do_write_internal q a_h).2 = [Effect.handler_call a_h error_code.ok] ∨
      ∃ L, (do_write_internal q a_h).2 = [Effect.transport_write L ⟨a_h⟩] := by
  unfold do_write_internal
  split
  · exact Or.inl rfl
  · exact Or.inr ⟨_, rfl⟩

/-- The two possible outcomes of `handle_write` for the handler. -/
theorem handle_write_effects (q : basic_buffer_queue B) (ec : error_code) (a_h : H) :
    (∃ e, (handle_write q ec a_h).2 = [Effect.handler_call a_h e]) ∨
      ∃ L, (handle_write q ec a_h).2 = [Effect.transport_write L ⟨a_h⟩] := by
  unfold handle_write
  split
  · exact Or.inl ⟨ec, rfl⟩
  · rcases do_write_internal_effects
      ({ clear q (writing_queue q) with m_is_writing := false }) a_h with h | ⟨L, h⟩
    · exact Or.inl ⟨_, h⟩
    · exact Or.inr ⟨L, h⟩

/-- After `do_write_internal` the registered handlers are the old ones and possibly the
handler passed in. -/
theorem registered_do_write_internal (ps : List (List B × write_wrapper H))
    (q : basic_buffer_queue B) (a_h : H) :
    ∀ h ∈ registered (ps ++ writes (do_write_internal q a_h).2),
      h ∈ registered ps ∨ h = a_h := by
  intro h hh
  simp only [registered, List.map_append, List.mem_append] at hh
  rcases hh with hh | hh
  · exact Or.inl hh
  · rcases do_write_internal_effects q a_h with he | ⟨L, he⟩
    · simp [he, writes] at hh
    · simp only [he, writes, List.map_cons, List.map_nil, List.mem_singleton] at hh
      exact Or.inr hh

/-- A handler called in a step, or registered with a write pending after it, was
registered with a write pending before the step or is passed in by the step. -/
theorem provenance_step {s s1 : System B H} {x : Step B H} (hx : step s x = some s1) :
    ∃ es, s1.log = s.log ++ es ∧
      (∀ c ∈ calls es, c.1 ∈ registered s.pending ∨ c.1 ∈ supplied [x]) ∧
      (∀ h ∈ registered s1.pending, h ∈ registered s.pending ∨ h ∈ supplied [x]) := by
  cases x with
  | enqueue c =>
    simp only [step, Option.some.injEq] at hx
    subst hx
    exact ⟨[], by simp, by simp [calls], fun h hh => Or.inl hh⟩
  | async_write a_h =>
    simp only [step, Option.some.injEq] at hx
    subst hx
    refine ⟨(async_write s.bq a_h).2, rfl, ?_, ?_⟩
    · rcases do_write_internal_effects s.bq a_h with h | ⟨L, h⟩ <;>
        simp [async_write, h, calls, supplied]
    · intro h hh
      rcases registered_do_write_internal s.pending s.bq a_h h hh with a | a
      · exact Or.inl a
      · exact Or.inr (by simp [supplied, a])
  | async_write_buf c a_h =>
    simp only [step, Option.some.injEq] at hx
    subst hx
    refine ⟨(async_write_buf s.bq c a_h).2, rfl, ?_, ?_⟩
    · rcases do_write_internal_effects (push_back s.bq (available_queue s.bq) c) a_h
        with h | ⟨L, h⟩ <;> simp [async_write_buf, h, calls, supplied]
    · intro h hh
      rcases registered_do_write_internal s.pending
        (push_back s.bq (available_queue s.bq) c) a_h h hh with a | a
      · exact Or.inl a
      · exact Or.inr (by simp [supplied, a])
  | completion i ec =>
    simp only [step] at hx
    cases hp : s.pending[i]? with
    | none => rw [hp] at hx; cases hx
    | some p =>
      rw [hp] at hx
      simp only [Option.some.injEq] at hx
      subst hx
      have hmem : p.2.m_handler ∈ registered s.pending :=
        List.mem_map_of_mem _ (List.getElem?_mem hp)
      have hsub : ∀ h ∈ registered (s.pending.eraseIdx i), h ∈ registered s.pending := by
        intro h hh
        simp only [registered, List.mem_map] at hh ⊢
        obtain ⟨q, hq, rfl⟩ := hh
        exact ⟨q, List.mem_of_mem_eraseIdx hq, rfl⟩
      refine ⟨(p.2.call s.bq ec).2, rfl, ?_, ?_⟩
      · rcases handle_write_effects s.bq ec p.2.m_handler with ⟨e, h⟩ | ⟨L, h⟩
        · simp only [write_wrapper.call, h, calls, List.mem_singleton]
          intro c hc
          subst hc
          exact Or.inl hmem
        · simp [write_wrapper.call, h, calls]
      · intro h hh
        simp only [System.record, registered, List.map_append, List.mem_append] at hh
        rcases hh with hh | hh
        · exact Or.inl (hsub h hh)
        · rcases handle_write_effects s.bq ec p.2.m_handler with ⟨e, he⟩ | ⟨L, he⟩
          · simp [write_wrapper.call, he, writes] at hh
          · simp only [write_wrapper.call, he, writes, List.map_cons, List.map_nil,
              List.mem_singleton] at hh
            subst hh
            exact Or.inl hmem

theorem provenance_run {s s1 : System B H} (xs : List (Step B H))
    (hx : run s xs = some s1) :
    ∃ es, s1.log = s.log ++ es ∧
      (∀ c ∈ calls es, c.1 ∈ registered s.pending ∨ c.1 ∈ supplied xs) ∧
      (∀ h ∈ registered s1.pending, h ∈ registered s.pending ∨ h ∈ supplied xs) := by
  induction xs generalizing s with
  | nil =>
    simp only [run, Option.some.injEq] at hx
    subst hx
    exact ⟨[], by simp, by simp [calls], fun h hh => Or.inl hh⟩
  | cons x xs ih =>
    simp only [run] at hx
    cases h1 : step s x with
    | none => rw [h1] at hx; cases hx
    | some s2 =>
      rw [h1] at hx
      obtain ⟨e1, hl1, hc1, hp1⟩ := provenance_step h1
      obtain ⟨e2, hl2, hc2, hp2⟩ := ih hx
      have hsup : supplied (x :: xs) = supplied [x] ++ supplied xs := supplied_append [x] xs
      have key : ∀ h, (h ∈ registered s2.pending ∨ h ∈ supplied xs) →
          (h ∈ registered s.pending ∨ h ∈ supplied (x :: xs)) := by
        intro h hh
        rw [hsup, List.mem_append]
        rcases hh with hh | hh
        · rcases hp1 h hh with a | a
          · exact Or.inl a
          · exact Or.inr (Or.inl a)
        · exact Or.inr (Or.inr hh)
      refine ⟨e1 ++ e2, by rw [hl2, hl1, List.append_assoc], ?_, ?_⟩
      · intro c hc
        rw [calls_append, List.mem_append] at hc
        rcases hc with hc | hc
        · rcases hc1 c hc with a | a
          · exact Or.inl a
          · rw [hsup, List.mem_append]
            exact Or.inr (Or.inl a)
        · exact key _ (hc2 c hc)
      · intro h hh
        exact key _ (hp2 h hh)

/-! ## A flush made while a write is in flight -/

/-- C12, as stated, fails: in the reachable state `scenario_state` a write is in flight,
and the call `async_write(socket, 9)` made there does call handler 9. -/
theorem flush_during_write_calls_handler :
    ¬ ∀ (s s1 : System Nat Nat) (h : Nat), Reachable s → s.pending ≠ [] →
        step s (Step.async_write h) = some s1 → calls s1.log = calls s.log := by
  intro hall
  have h1 := hall scenario_state
    { bq := scenario_state.bq, pending := scenario_state.pending,
      log := scenario_state.log ++ [Effect.handler_call 9 error_code.ok] }
    9 scenario_reachable (by decide) rfl
  revert h1
  decide

/-- C12, amended: in a reachable state with the write `(b, w)` in flight, a call
`async_write(socket, h)` calls `h` once, immediately, with the no-error status, and does
not retain it: the queue and the pending write, with its own handler, are unchanged.
In whatever steps follow, every handler called is the one registered with the in-flight
write or one passed in by a later call; so completions and chained writes never call `h`
on behalf of this call. -/
theorem flush_during_write_callback (s : System B H) (i : Nat) (b : List B)
    (w : write_wrapper H) (a_h : H) (hr : Reachable s) (hp : s.pending[i]? = some (b, w)) :
    step s (Step.async_write a_h) = some
        { bq := s.bq, pending := [(b, w)],
          log := s.log ++ [Effect.handler_call a_h error_code.ok] } ∧
      ∀ (xs : List (Step B H)) (s2 : System B H),
        run ({ bq := s.bq, pending := [(b, w)],
               log := s.log ++ [Effect.handler_call a_h error_code.ok] } : System B H) xs
            = some s2 →
          ∃ es, s2.log = (s.log ++ [Effect.handler_call a_h error_code.ok]) ++ es ∧
            ∀ c ∈ calls es, c.1 = w.m_handler ∨ c.1 ∈ supplied xs := by
  have hi := hr.inv
  have hpe := (hi.pending_eq hp).1
  have hw : s.bq.m_is_writing = true := (hi.pending_writing (b, w) (by simp [hpe])).1
  constructor
  · simp only [step, async_write, do_write_internal_idle _ _ (Or.inl hw), System.record,
      writes, hpe, List.append_nil]
  · intro xs s2 hrun
    obtain ⟨es, hl, hc, _⟩ := provenance_run xs hrun
    refine ⟨es, hl, ?_⟩
    intro c hcm
    rcases hc c hcm with a | a
    · simp only [registered, List.map_cons, List.map_nil, List.mem_singleton] at a
      exact Or.inl a
    · exact Or.inr a

theorem flush_during_write_callback_witness :
    step scenario_state (Step.async_write 9) = some
        { bq := scenario_state.bq, pending := [([1, 2], ⟨0⟩)],
          log := scenario_state.log ++ [Effect.handler_call 9 error_code.ok] } ∧
      ∀ (xs : List (Step Nat Nat)) (s2 : System Nat Nat),
        run ({ bq := scenario_state.bq, pending := [([1, 2], ⟨0⟩)],
               log := scenario_state.log ++ [Effect.handler_call 9 error_code.ok] } :
              System Nat Nat) xs = some s2 →
          ∃ es, s2.log = (scenario_state.log ++ [Effect.handler_call 9 error_code.ok]) ++ es ∧
            ∀ c ∈ calls es, c.1 = (⟨0⟩ : write_wrapper Nat).m_handler ∨ c.1 ∈ supplied xs :=
  flush_during_write_callback scenario_state 0 [1, 2] ⟨0⟩ 9 scenario_reachable rfl

/-- C13 (a flush during a write does no I/O): in a reachable state with a write in
flight, both overloads of `async_write` submit nothing (the pending writes are unchanged
and the log gains only the call of the handler); the first leaves the queue unchanged, the
second only appends its chunk to the accumulating slot, leaving the draining slot,
`m_available_queue` and `m_is_writing` as they were. -/
theorem flush_during_write_no_io (s : System B H) (c : B) (a_h : H) (hr : Reachable s)
    (hne : s.pending ≠ []) :
    step s (Step.async_write a_h) = some
        { bq := s.bq, pending := s.pending,
          log := s.log ++ [Effect.handler_call a_h error_code.ok] } ∧
      step s (Step.async_write_buf c a_h) = some
        { bq := enqueue s.bq c, pending := s.pending,
          log := s.log ++ [Effect.handler_call a_h error_code.ok] } ∧
      accumulating (enqueue s.bq c) = accumulating s.bq ++ [c] ∧
      draining (enqueue s.bq c) = draining s.bq ∧
      (enqueue s.bq c).m_available_queue = s.bq.m_available_queue ∧
      (enqueue s.bq c).m_is_writing = s.bq.m_is_writing := by
  have hi := hr.inv
  have hw : s.bq.m_is_writing = true := by
    cases hpe : s.pending with
    | nil => exact absurd hpe hne
    | cons p ps => exact (hi.pending_writing p (by simp [hpe])).1
  refine ⟨?_, ?_, accumulating_push_back s.bq c, draining_push_back s.bq c,
    push_back_available _ _ _, push_back_is_writing _ _ _⟩
  · simp only [step, async_write, do_write_internal_idle _ _ (Or.inl hw), System.record,
      writes, List.append_nil]
  · simp only [step, async_write_buf, do_write_internal_idle _ _
      (Or.inl ((push_back_is_writing _ _ _).trans hw)), System.record, writes,
      List.append_nil, enqueue]

theorem flush_during_write_no_io_witness :
    step scenario_state (Step.async_write 9) = some
        { bq := scenario_state.bq, pending := scenario_state.pending,
          log := scenario_state.log ++ [Effect.handler_call 9 error_code.ok] } ∧
      step scenario_state (Step.async_write_buf 4 9) = some
        { bq := enqueue scenario_state.bq 4, pending := scenario_state.pending,
          log := scenario_state.log ++ [Effect.handler_call 9 error_code.ok] } ∧
      accumulating (enqueue scenario_state.bq 4) = accumulating scenario_state.bq ++ [4] ∧
      draining (enqueue scenario_state.bq 4) = draining scenario_state.bq ∧
      (enqueue scenario_state.bq 4).m_available_queue
        = scenario_state.bq.m_available_queue ∧
      (enqueue scenario_state.bq 4).m_is_writing = scenario_state.bq.m_is_writing :=
  flush_during_write_no_io scenario_state 4 9 scenario_reachable (by decide)

/-- C14 (enqueueAndFlush is enqueue followed by flush): in every state, for every chunk
and handler, `async_write(socket, c, h)` gives the same result as `enqueue(c)` followed by
`async_write(socket, h)`: the same queue, the same pending writes and the same log of
transport submissions and handler calls. -/
theorem async_write_buf_refines (s : System B H) (c : B) (a_h : H) :
    step s (Step.async_write_buf c a_h) = enqueue_then_flush s c a_h ∧
      async_write_buf s.bq c a_h = async_write (enqueue s.bq c) a_h := by
  refine ⟨?_, rfl⟩
  simp only [enqueue_then_flush, run, step, Option.some_bind]
  rfl

/-! ## Roles -/

/-- C15 (the roles are a partition exchanged by index only): in every reachable state
`available_queue()` and `writing_queue()` are 0 or 1 and differ; `flip_queues` exchanges
them, applied twice it restores the queue, and it changes neither `m_q1` nor `m_q2` (nor
the flag). -/
theorem roles_partition (s : System B H) (hr : Reachable s) :
    (available_queue s.bq = 0 ∨ available_queue s.bq = 1) ∧
      (writing_queue s.bq = 0 ∨ writing_queue s.bq = 1) ∧
      available_queue s.bq ≠ writing_queue s.bq ∧
      available_queue (flip_queues s.bq) = writing_queue s.bq ∧
      writing_queue (flip_queues s.bq) = available_queue s.bq ∧
      flip_queues (flip_queues s.bq) = s.bq ∧
      (flip_queues s.bq).m_q1 = s.bq.m_q1 ∧ (flip_queues s.bq).m_q2 = s.bq.m_q2 ∧
      (flip_queues s.bq).m_is_writing = s.bq.m_is_writing := by
  have hle := hr.inv.index_le
  have h2 : lnot (lnot s.bq.m_available_queue) = s.bq.m_available_queue := lnot_lnot _ hle
  refine ⟨?_, ?_, ?_, rfl, h2, ?_, rfl, rfl, rfl⟩
  · simp only [available_queue]; omega
  · have := lnot_le_one s.bq.m_available_queue
    simp only [writing_queue]; omega
  · simp only [available_queue, writing_queue, lnot]
    split <;> omega
  · simp only [flip_queues, h2]

theorem roles_partition_witness :
    (available_queue scenario_state.bq = 0 ∨ available_queue scenario_state.bq = 1) ∧
      (writing_queue scenario_state.bq = 0 ∨ writing_queue scenario_state.bq = 1) ∧
      available_queue scenario_state.bq ≠ writing_queue scenario_state.bq ∧
      available_queue (flip_queues scenario_state.bq) = writing_queue scenario_state.bq ∧
      writing_queue (flip_queues scenario_state.bq) = available_queue scenario_state.bq ∧
      flip_queues (flip_queues scenario_state.bq) = scenario_state.bq ∧
      (flip_queues scenario_state.bq).m_q1 = scenario_state.bq.m_q1 ∧
      (flip_queues scenario_state.bq).m_q2 = scenario_state.bq.m_q2 ∧
      (flip_queues scenario_state.bq).m_is_writing = scenario_state.bq.m_is_writing :=
  roles_partition scenario_state scenario_reachable

/-- C16 (idle implies an empty draining slot): in every reachable state with
`m_is_writing = false` the draining slot is empty; hence after any step that submits a
write, that is whenever `do_write_internal` flips the roles, the slot that has become the
accumulating slot is empty. -/
theorem idle_implies_drained (s : System B H) (hr : Reachable s) :
    (s.bq.m_is_writing = false → draining s.bq = []) ∧
      ∀ (x : Step B H) (s1 : System B H) (b : List B) (w : write_wrapper H),
        step s x = some s1 → writes s1.log = writes s.log ++ [(b, w)] →
          accumulating s1.bq = [] :=
  ⟨hr.inv.idle_drained, fun _ _ _ _ hx hsub => (hr.inv.submitting_step hx hsub).2.2⟩

theorem idle_implies_drained_witness :
    (loaded_state.bq.m_is_writing = false → draining loaded_state.bq = []) ∧
      ∀ (x : Step Nat Nat) (s1 : System Nat Nat) (b : List Nat) (w : write_wrapper Nat),
        step loaded_state x = some s1 → writes s1.log = writes loaded_state.log ++ [(b, w)] →
          accumulating s1.bq = [] :=
  idle_implies_drained loaded_state loaded_reachable

/-! ## Handler accounting -/

/-- Across `do_write_internal` the handlers called or registered grow by exactly the handler
passed in. -/
theorem accounting_do_write_internal (L : List (Effect B H))
    (ps : List (List B × write_wrapper H)) (q : basic_buffer_queue B) (a_h : H) :
    List.Perm
      ((calls (L ++ (do_write_internal q a_h).2)).map Prod.fst
        ++ registered (ps ++ writes (do_write_internal q a_h).2))
      ((calls L).map Prod.fst ++ registered ps ++ [a_h]) := by
  rcases do_write_internal_effects q a_h with he | ⟨K, he⟩
  · simp only [he, calls_append, calls, writes, List.map_append, List.map_cons, List.map_nil,
      List.append_nil, List.append_assoc]
    exact List.Perm.append_left _ List.perm_append_comm
  · simp only [he, calls_append, calls, writes, registered, List.map_append, List.map_cons,
      List.map_nil, List.append_nil, List.append_assoc]
    exact List.Perm.refl _

theorem accounting_step {s s1 : System B H} {x : Step B H} (hs : Inv s)
    (hx : step s x = some s1) :
    List.Perm (called s1 ++ registered s1.pending)
      (called s ++ registered s.pending ++ supplied [x]) := by
  cases x with
  | enqueue c =>
    simp only [step, Option.some.injEq] at hx
    subst hx
    simp [called, supplied]
  | async_write a_h =>
    simp only [step, Option.some.injEq] at hx
    subst hx
    exact accounting_do_write_internal s.log s.pending s.bq a_h
  | async_write_buf c a_h =>
    simp only [step, Option.some.injEq] at hx
    subst hx
    exact accounting_do_write_internal s.log s.pending _ a_h
  | completion i ec =>
    simp only [step] at hx
    cases hp : s.pending[i]? with
    | none => rw [hp] at hx; cases hx
    | some p =>
      rw [hp] at hx
      simp only [Option.some.injEq] at hx
      subst hx
      obtain ⟨hpe, hi0, _⟩ := hs.pending_eq hp
      subst hi0
      by_cases hec : ec.failed = true
      · simp [called, System.record, write_wrapper.call, handle_write_failed _ _ _ hec,
          calls_append, calls, writes, registered, supplied, hpe]
      · have h1 := accounting_do_write_internal s.log []
          ({ clear s.bq (writing_queue s.bq) with m_is_writing := false }) p.2.m_handler
        simp only [called, System.record, write_wrapper.call, handle_write, hec,
          hpe, supplied, List.append_nil]
        simpa [registered] using h1

theorem accounting_run {s s1 : System B H} (xs : List (Step B H)) (hs : Inv s)
    (hx : run s xs = some s1) :
    List.Perm (called s1 ++ registered s1.pending)
      (called s ++ registered s.pending ++ supplied xs) := by
  induction xs generalizing s with
  | nil =>
    simp only [run, Option.some.injEq] at hx
    subst hx
    simp [supplied]
  | cons x xs ih =>
    simp only [run] at hx
    cases h1 : step s x with
    | none => rw [h1] at hx; cases hx
    | some s2 =>
      rw [h1] at hx
      have a := accounting_step hs h1
      have b := ih (hs.after_step h1) hx
      have hsup : supplied (x :: xs) = supplied [x] ++ supplied xs := supplied_append [x] xs
      rw [hsup, ← List.append_assoc]
      exact b.trans (List.Perm.append_right _ a)

/-- C17 (handler accounting): after any sequence of steps from a freshly constructed
queue, the handlers called so far together with the handlers registered with pending
writes are, up to order, exactly the handlers passed to the `async_write` calls made so
far. So the number of handler calls plus the number of pending writes is the number of
`async_write` calls; if the handlers passed in are pairwise different none is called
twice; and with no write pending each has been called exactly once. -/
theorem handler_accounting (tr : List (Step B H)) (s : System B H)
    (h : run System.new tr = some s) :
    (calls s.log).length + s.pending.length = (supplied tr).length ∧
      List.Perm (called s ++ registered s.pending) (supplied tr) ∧
      ((supplied tr).Nodup → (called s).Nodup) ∧
      (s.pending = [] → List.Perm (called s) (supplied tr)) := by
  have hperm : List.Perm (called s ++ registered s.pending) (supplied tr) := by
    have := accounting_run tr Inv.fresh h
    simpa [called, System.new, calls, registered] using this
  refine ⟨?_, hperm, ?_, ?_⟩
  · have := hperm.length_eq
    simpa [called, registered] using this
  · intro hnd
    exact (List.nodup_append.1 (hperm.nodup_iff.2 hnd)).1
  · intro hp
    simpa [hp, registered] using hperm

theorem handler_accounting_witness :
    (calls scenario_state.log).length + scenario_state.pending.length
        = (supplied scenario).length ∧
      List.Perm (called scenario_state ++ registered scenario_state.pending)
        (supplied scenario) ∧
      ((supplied scenario).Nodup → (called scenario_state).Nodup) ∧
      (scenario_state.pending = [] → List.Perm (called scenario_state) (supplied scenario)) :=
  handler_accounting scenario scenario_state rfl

/-! ## After a failed write -/

/-- While `m_is_writing` is set every public call is possible, and an `async_write` call
calls its handler at once with the no-error status. -/
theorem busy_calls_step (s : System B H) (x : Step B H) (hw : s.bq.m_is_writing = true)
    (hc : x.is_call = true) :
    ∃ s1, step s x = some s1 ∧
      calls s1.log = calls s.log ++ (supplied [x]).map (fun h => (h, error_code.ok)) := by
  cases x with
  | enqueue c => exact ⟨_, rfl, by simp [supplied]⟩
  | async_write a_h =>
    refine ⟨_, rfl, ?_⟩
    simp [async_write, do_write_internal_idle _ _ (Or.inl hw), System.record, calls_append,
      calls, supplied]
  | async_write_buf c a_h =>
    refine ⟨_, rfl, ?_⟩
    simp [async_write_buf, do_write_internal_idle _ _
      (Or.inl ((push_back_is_writing _ _ _).trans hw)), System.record, calls_append,
      calls, supplied]
  | completion i ec => cases hc

theorem busy_calls_run (s : System B H) (xs : List (Step B H))
    (hw : s.bq.m_is_writing = true) (hc : ∀ y ∈ xs, y.is_call = true) :
    ∃ s1, run s xs = some s1 ∧
      calls s1.log = calls s.log ++ (supplied xs).map (fun h => (h, error_code.ok)) := by
  induction xs generalizing s with
  | nil => exact ⟨s, rfl, by simp [supplied]⟩
  | cons x xs ih =>
    have hcx := hc x (List.mem_cons_self x xs)
    obtain ⟨s1, h1, c1⟩ := busy_calls_step s x hw hcx
    have hw1 := (busy_step hw hcx h1).2.1
    obtain ⟨s2, h2, c2⟩ := ih s1 hw1 (fun y hy => hc y (List.mem_cons_of_mem x hy))
    refine ⟨s2, by simp only [run, h1, Option.some_bind, h2], ?_⟩
    have hsup : supplied (x :: xs) = supplied [x] ++ supplied xs := supplied_append [x] xs
    rw [c2, c1, hsup, List.map_append, List.append_assoc]

/-- C18 (the state after a failed write is absorbing): let the pending write `(b, w)` of
a reachable state complete with a failure status, and let any sequence of `enqueue` and
`async_write` calls follow. All of them are carried out, none submits a write (the list of
submitted writes does not change and nothing is pending), `m_is_writing` stays true, the
draining slot keeps the failed batch `b`, and every `async_write` call calls its handler
at once with the no-error status. -/
theorem failed_write_absorbing (s : System B H) (i : Nat) (b : List B)
    (w : write_wrapper H) (ec : error_code) (xs : List (Step B H)) (hr : Reachable s)
    (hp : s.pending[i]? = some (b, w)) (hec : ec.failed = true)
    (hxs : ∀ y ∈ xs, y.is_call = true) :
    ∃ s1 s2, step s (Step.completion i ec) = some s1 ∧ run s1 xs = some s2 ∧
      writes s2.log = writes s1.log ∧ s2.pending = [] ∧ s2.bq.m_is_writing = true ∧
      draining s2.bq = b ∧
      calls s2.log = calls s1.log ++ (supplied xs).map (fun h => (h, error_code.ok)) := by
  have hi := hr.inv
  have hmem : (b, w) ∈ s.pending := List.getElem?_mem hp
  obtain ⟨hw, hd⟩ := hi.pending_writing (b, w) hmem
  have hs1 : step s (Step.completion i ec) = some
      { bq := s.bq, pending := [], log := s.log ++ [Effect.handler_call w.m_handler ec] } := by
    simp only [step, hp, write_wrapper.call, handle_write_failed _ _ _ hec, System.record,
      (hi.pending_eq hp).2.2, writes, List.append_nil]
  obtain ⟨s2, h2, c2⟩ := busy_calls_run
    ({ bq := s.bq, pending := [], log := s.log ++ [Effect.handler_call w.m_handler ec] } :
      System B H) xs hw hxs
  obtain ⟨b1, b2, _, _, b5, b6⟩ := busy_run
    (s := ({ bq := s.bq, pending := [],
             log := s.log ++ [Effect.handler_call w.m_handler ec] } : System B H))
    xs hw hxs h2
  exact ⟨_, s2, hs1, h2, b6, b1, b2, b5.trans hd, c2⟩

theorem failed_write_absorbing_witness :
    ∃ s1 s2, step scenario_state (Step.completion 0 ⟨5⟩) = some s1 ∧
      run s1 after_failure = some s2 ∧
      writes s2.log = writes s1.log ∧ s2.pending = [] ∧ s2.bq.m_is_writing = true ∧
      draining s2.bq = [1, 2] ∧
      calls s2.log = calls s1.log
        ++ (supplied after_failure).map (fun h => (h, error_code.ok)) :=
  failed_write_absorbing scenario_state 0 [1, 2] ⟨0⟩ ⟨5⟩ after_failure scenario_reachable
    rfl rfl (by decide)

end util

namespace utxx.path

/-! ## The last path component -/

/-- C19 (result of `path::basename`), evaluated on the code: for the string `/abc`, with
`begin` at its first character and `end` at its terminating NUL, `basename` returns
`begin`, although the character at `begin` is the separator: the loop tests the
characters at `end` down to `begin + 1` and never the one at `begin`. -/
theorem basename_keeps_leading_separator :
    basename rooted '/' 0 4 = some 0 ∧ rooted 0 = '/' := by
  decide

end utxx.path
